import Mathlib

/-
Verification development for the datajoint-plus repository.

Shallow embedding of the core algorithms of `datajoint_plus`:
  * the hash engine (`src/datajoint_plus/hash.py`),
  * the definition header codec (`src/datajoint_plus/heading.py`),
  * input validation (`src/datajoint_plus/validation.py`),
  * the row-preparation / insert pipeline and the master-part consistency
    engine (`src/datajoint_plus/base.py`),
  * the table identity registry (`src/datajoint_plus/table.py`).

Rows of a pandas DataFrame built from a list of dicts are embedded as
association lists from column names to values; the MD5 digest and the
relational engine (DataJoint/MySQL) are external collaborators and are
embedded at their interface boundary (the digest as an arbitrary function
of the serialized canonical form, the engine as explicit state).
-/

namespace DJPlus

/-! ## Values and rows

A cell value of a row.  pandas cells of the rows fed to `generate_hash`
are JSON-serializable scalars; integers and strings suffice for the
embedding (the hashing pipeline only compares, sorts and serializes
values, it never computes with them). -/
inductive Value where
  | int (i : Int)
  | str (s : String)
deriving DecidableEq, Repr

/-- Total comparison used when pandas sorts rows by a column tuple.
Within one well-typed column all values share a constructor and the
comparison coincides with the pandas one; across constructors an
arbitrary fixed order (ints before strings) totalizes it. -/
def Value.le : Value → Value → Bool
  | .int a, .int b => decide (a ≤ b)
  | .int _, .str _ => true
  | .str _, .int _ => false
  | .str a, .str b => decide (a ≤ b)

theorem Value.leTotal (a b : Value) : a.le b = true ∨ b.le a = true := by
  cases a with
  | int i =>
    cases b with
    | int j => simp only [Value.le, decide_eq_true_eq]; exact le_total i j
    | str t => left; rfl
  | str s =>
    cases b with
    | int j => right; rfl
    | str t => simp only [Value.le, decide_eq_true_eq]; exact le_total s t

theorem Value.leTrans {a b c : Value} (h₁ : a.le b = true) (h₂ : b.le c = true) :
    a.le c = true := by
  cases a <;> cases b <;> cases c <;>
    simp only [Value.le, decide_eq_true_eq] at * <;>
    first
      | rfl
      | exact le_trans h₁ h₂
      | exact absurd h₁ (by decide)
      | exact absurd h₂ (by decide)

theorem Value.leAntisymm {a b : Value} (h₁ : a.le b = true) (h₂ : b.le a = true) :
    a = b := by
  cases a <;> cases b <;> simp only [Value.le, decide_eq_true_eq] at * <;>
    first
      | exact congrArg _ (le_antisymm h₁ h₂)
      | exact absurd h₁ (by decide)
      | exact absurd h₂ (by decide)

/-- A row: one record of the DataFrame, i.e. an association list from
column name to cell value (a Python dict with string keys). -/
abbrev Row := List (String × Value)

/-- Lexicographic comparison of fields, by column name first and value
second.  For rows with duplicate-free column names (always true of a
dict) sorting by this order is exactly sorting by column name, which is
what `df.sort_index(axis=1)` does. -/
def fieldLe (a b : String × Value) : Bool :=
  if a.1 = b.1 then a.2.le b.2 else decide (a.1 < b.1)

theorem fieldLe_total (a b : String × Value) : fieldLe a b = true ∨ fieldLe b a = true := by
  by_cases h : a.1 = b.1
  · simp only [fieldLe, if_pos h, if_pos h.symm]
    exact Value.leTotal _ _
  · rcases lt_or_gt_of_ne h with hlt | hgt
    · left; simp [fieldLe, if_neg h, hlt]
    · right; simp [fieldLe, if_neg (Ne.symm h), hgt]

theorem fieldLe_trans {a b c : String × Value} (h₁ : fieldLe a b = true)
    (h₂ : fieldLe b c = true) : fieldLe a c = true := by
  unfold fieldLe at *
  by_cases hab : a.1 = b.1 <;> by_cases hbc : b.1 = c.1
  · rw [if_pos hab] at h₁
    rw [if_pos hbc] at h₂
    rw [if_pos (hab.trans hbc)]
    exact Value.leTrans h₁ h₂
  · rw [if_neg hbc] at h₂
    rw [if_neg (fun hac => hbc (hab.symm.trans hac)), hab]
    exact h₂
  · rw [if_neg hab] at h₁
    rw [if_neg (fun hac => hab (hac.trans hbc.symm)), ← hbc]
    exact h₁
  · rw [if_neg hab] at h₁
    rw [if_neg hbc] at h₂
    have hlt := lt_trans (of_decide_eq_true h₁) (of_decide_eq_true h₂)
    rw [if_neg (ne_of_lt hlt)]
    exact decide_eq_true hlt

theorem fieldLe_antisymm {a b : String × Value} (h₁ : fieldLe a b = true)
    (h₂ : fieldLe b a = true) : a = b := by
  obtain ⟨a1, a2⟩ := a
  obtain ⟨b1, b2⟩ := b
  unfold fieldLe at *
  by_cases hab : a1 = b1
  · simp only [hab, if_pos rfl] at h₁ h₂ ⊢
    subst hab
    exact congrArg _ (Value.leAntisymm h₁ h₂)
  · simp only [if_neg hab, if_neg (Ne.symm hab)] at h₁ h₂
    exact absurd (lt_trans (of_decide_eq_true h₁) (of_decide_eq_true h₂)) (lt_irrefl _)

/-- Lexicographic comparison of whole rows, used when pandas sorts the
DataFrame rows by the full (sorted) column tuple
(`df.sort_values(by=df.columns.tolist())`). -/
def rowLe : Row → Row → Bool
  | [], _ => true
  | _ :: _, [] => false
  | a :: as, b :: bs => if a = b then rowLe as bs else fieldLe a b

theorem rowLe_total (a b : Row) : rowLe a b = true ∨ rowLe b a = true := by
  induction a generalizing b with
  | nil => left; rfl
  | cons x xs ih =>
    cases b with
    | nil => right; rfl
    | cons y ys =>
      by_cases hxy : x = y
      · subst hxy
        simpa [rowLe] using ih ys
      · rcases fieldLe_total x y with h | h
        · left; simp [rowLe, hxy, h]
        · right; simp [rowLe, Ne.symm hxy, h]

theorem rowLe_trans {a b c : Row} (h₁ : rowLe a b = true) (h₂ : rowLe b c = true) :
    rowLe a c = true := by
  induction a generalizing b c with
  | nil => rfl
  | cons x xs ih =>
    cases b with
    | nil => simp [rowLe] at h₁
    | cons y ys =>
      cases c with
      | nil => simp [rowLe] at h₂
      | cons z zs =>
        by_cases hxy : x = y <;> by_cases hyz : y = z
        · subst hxy; subst hyz
          simp only [rowLe, if_pos rfl] at *
          exact ih h₁ h₂
        · subst hxy
          simp only [rowLe, if_pos rfl, if_neg hyz] at *
          exact h₂
        · subst hyz
          simp only [rowLe, if_neg hxy] at *
          exact h₁
        · by_cases hxz : x = z
          · exfalso
            simp only [rowLe, if_neg hxy] at h₁
            simp only [rowLe, if_neg hyz] at h₂
            exact hxy (hxz ▸ (fieldLe_antisymm h₂ (hxz ▸ h₁)).symm)
          · simp only [rowLe, if_neg hxy] at h₁
            simp only [rowLe, if_neg hyz] at h₂
            simp only [rowLe, if_neg hxz]
            exact fieldLe_trans h₁ h₂

theorem rowLe_antisymm {a b : Row} (h₁ : rowLe a b = true) (h₂ : rowLe b a = true) :
    a = b := by
  induction a generalizing b with
  | nil =>
    cases b with
    | nil => rfl
    | cons y ys => simp [rowLe] at h₂
  | cons x xs ih =>
    cases b with
    | nil => simp [rowLe] at h₁
    | cons y ys =>
      by_cases hxy : x = y
      · subst hxy
        simp only [rowLe, if_pos rfl] at h₁ h₂
        exact congrArg _ (ih h₁ h₂)
      · simp only [rowLe, if_neg hxy, if_neg (Ne.symm hxy)] at h₁ h₂
        exact absurd (fieldLe_antisymm h₁ h₂) hxy

theorem fieldLe_or (a b : String × Value) : (fieldLe a b || fieldLe b a) = true := by
  rcases fieldLe_total a b with h | h <;> simp [h]

theorem rowLe_or (a b : Row) : (rowLe a b || rowLe b a) = true := by
  rcases rowLe_total a b with h | h <;> simp [h]

/-! ## Hash engine: `generate_hash` (src/datajoint_plus/hash.py, lines 12-32) -/

/-- `df.sort_index(axis=1)`: with the duplicate-free column names of a
dict, sorting the DataFrame columns by name orders every record's fields
by column name; the value component of `fieldLe` never decides between
two fields of one record and only serves to make the order linear. -/
def sortRow (r : Row) : Row := r.mergeSort fieldLe

/-- `df[k] = v` for each `k: v` pair of `add_constant_columns`: column `k`
is replaced if present and appended otherwise (its position is irrelevant
because the columns are sorted afterwards). -/
def addConstantColumns (cc : Row) (r : Row) : Row :=
  r.filter (fun f => !(cc.map Prod.fst).contains f.1) ++ cc

/-- The canonical form built by `generate_hash`: add the constant columns,
sort the columns (`df.sort_index(axis=1)`), then sort the rows by the full
column tuple (`df.sort_values(by=df.columns.tolist())`, a stable sort
whose ties are full-record equalities once the columns are sorted). -/
def canonicalRecords (rows : List Row) (cc : Option Row) : List Row :=
  let rows' := match cc with
    | none => rows
    | some c => rows.map (addConstantColumns c)
  (rows'.map sortRow).mergeSort rowLe

/-- JSON-style serialization of one cell (`simplejson.dumps`). -/
def encodeValue : Value → String
  | .int i => toString i
  | .str s => "\"" ++ s ++ "\""

def encodeField (f : String × Value) : String :=
  "\"" ++ f.1 ++ "\": " ++ encodeValue f.2

def encodeRow (r : Row) : String :=
  "\x7b" ++ String.intercalate ", " (r.map encodeField) ++ "\x7d"

/-- `simplejson.dumps(df.to_dict(orient='records'))`: the records of the
canonical DataFrame in order, each with its keys in column order. -/
def encodeRecords (rows : List Row) : String :=
  "[" ++ String.intercalate ", " (rows.map encodeRow) ++ "]"

/-- `generate_hash(rows, add_constant_columns)` from
src/datajoint_plus/hash.py lines 12-32: build the DataFrame, add the
constant columns, canonicalize by sorting columns then rows, serialize
the records and digest them.  `hashlib.md5(...).hexdigest()` is an
external deterministic function of the encoded bytes; it is passed in as
`digest`. -/
def generate_hash (digest : String → String) (rows : List Row)
    (add_constant_columns : Option Row) : String :=
  digest (encodeRecords (canonicalRecords rows add_constant_columns))

theorem sortRow_eq_of_perm {r s : Row} (h : r.Perm s) : sortRow r = sortRow s := by
  apply @List.eq_of_perm_of_sorted _ (fun a b => fieldLe a b = true)
    ⟨fun a b h₁ h₂ => fieldLe_antisymm h₁ h₂⟩
  · exact ((List.mergeSort_perm r fieldLe).trans h).trans (List.mergeSort_perm s fieldLe).symm
  · exact @List.sorted_mergeSort _ fieldLe (fun a b c h₁ h₂ => fieldLe_trans h₁ h₂) fieldLe_or r
  · exact @List.sorted_mergeSort _ fieldLe (fun a b c h₁ h₂ => fieldLe_trans h₁ h₂) fieldLe_or s

theorem addConstantColumns_perm (cc : Row) {r s : Row} (h : r.Perm s) :
    (addConstantColumns cc r).Perm (addConstantColumns cc s) :=
  (h.filter _).append_right cc

theorem mergeSort_rowLe_eq_of_perm {xs ys : List Row} (h : xs.Perm ys) :
    xs.mergeSort rowLe = ys.mergeSort rowLe := by
  apply @List.eq_of_perm_of_sorted _ (fun a b => rowLe a b = true)
    ⟨fun a b h₁ h₂ => rowLe_antisymm h₁ h₂⟩
  · exact ((List.mergeSort_perm xs rowLe).trans h).trans (List.mergeSort_perm ys rowLe).symm
  · exact @List.sorted_mergeSort _ rowLe (fun a b c h₁ h₂ => rowLe_trans h₁ h₂) rowLe_or xs
  · exact @List.sorted_mergeSort _ rowLe (fun a b c h₁ h₂ => rowLe_trans h₁ h₂) rowLe_or ys

theorem map_eq_of_forall₂_perm {f : Row → Row}
    (hf : ∀ {r s : Row}, r.Perm s → f r = f s)
    {xs ys : List Row} (h : List.Forall₂ (fun r s => r.Perm s) xs ys) :
    xs.map f = ys.map f := by
  induction h with
  | nil => rfl
  | cons h₁ _ ih => simp [hf h₁, ih]

theorem canonicalRecords_invariant (cc : Option Row) {rows₁ mid rows₂ : List Row}
    (hcols : List.Forall₂ (fun r s => r.Perm s) rows₁ mid)
    (hrows : mid.Perm rows₂) :
    canonicalRecords rows₂ cc = canonicalRecords rows₁ cc := by
  unfold canonicalRecords
  cases cc with
  | none =>
    apply mergeSort_rowLe_eq_of_perm
    have h₁ : (rows₂.map sortRow).Perm (mid.map sortRow) := (hrows.map sortRow).symm
    have h₂ : mid.map sortRow = rows₁.map sortRow :=
      (map_eq_of_forall₂_perm (fun h => sortRow_eq_of_perm h) hcols).symm
    exact h₁.trans (h₂ ▸ List.Perm.refl _)
  | some c =>
    apply mergeSort_rowLe_eq_of_perm
    simp only [List.map_map]
    have h₁ : (rows₂.map (sortRow ∘ addConstantColumns c)).Perm
        (mid.map (sortRow ∘ addConstantColumns c)) := (hrows.map _).symm
    have h₂ : mid.map (sortRow ∘ addConstantColumns c) =
        rows₁.map (sortRow ∘ addConstantColumns c) :=
      (map_eq_of_forall₂_perm
        (fun h => sortRow_eq_of_perm (addConstantColumns_perm c h)) hcols).symm
    exact h₁.trans (h₂ ▸ List.Perm.refl _)

/-- **C1.** For every row set accepted by `generate_hash`, every
permutation of its rows and every permutation of its columns,
`generate_hash` applied to the permuted row set returns the same hex
digest as on the original (with the same `add_constant_columns` argument
and for any digest function): `mid` applies a column permutation to every
record of `rows₁` and `rows₂` permutes the records of `mid`. -/
theorem generate_hash_permutation_invariant (digest : String → String)
    (add_constant_columns : Option Row) (rows₁ mid rows₂ : List Row)
    (hcols : List.Forall₂ (fun r s => r.Perm s) rows₁ mid)
    (hrows : mid.Perm rows₂) :
    generate_hash digest rows₂ add_constant_columns =
      generate_hash digest rows₁ add_constant_columns := by
  unfold generate_hash
  rw [canonicalRecords_invariant add_constant_columns hcols hrows]

/-- Witness for C1 at a concrete input: R = [{a:1, b:2}, {a:0, b:3}] with
the columns of each record reversed and the two records swapped. -/
theorem generate_hash_permutation_invariant_witness :
    generate_hash (fun s => s)
      [[("b", Value.int 3), ("a", Value.int 0)], [("b", Value.int 2), ("a", Value.int 1)]]
      (some [("table_id", Value.str "t")]) =
    generate_hash (fun s => s)
      [[("a", Value.int 1), ("b", Value.int 2)], [("a", Value.int 0), ("b", Value.int 3)]]
      (some [("table_id", Value.str "t")]) :=
  generate_hash_permutation_invariant (fun s => s) (some [("table_id", Value.str "t")])
    [[("a", Value.int 1), ("b", Value.int 2)], [("a", Value.int 0), ("b", Value.int 3)]]
    [[("b", Value.int 2), ("a", Value.int 1)], [("b", Value.int 3), ("a", Value.int 0)]]
    [[("b", Value.int 3), ("a", Value.int 0)], [("b", Value.int 2), ("a", Value.int 1)]]
    (List.Forall₂.cons (by decide) (List.Forall₂.cons (by decide) List.Forall₂.nil))
    (by decide)

/-! ## Header codec: `parse_definition` / `reform_definition`
(src/datajoint_plus/heading.py, lines 11-94)

`re.split('\n', definition)` and the final join are the string boundary;
the codec is embedded on the list of lines the split yields. -/

/-- The five mutually exclusive line classes of `parse_definition`, in
the dict insertion order of `parsed_inds` (the four queried names, then
`non-matches`). -/
inductive LineClass where
  | headers
  | dependencies
  | attributes
  | dividers
  | nonMatches
deriving DecidableEq, Repr

def LineClass.all : List LineClass :=
  [.headers, .dependencies, .attributes, .dividers, .nonMatches]

/-- `re.sub(' +', '', l)`: the line with every space removed (character
indexes below are relative to this stripped line, as in the source). -/
def stripSpaces (l : String) : List Char :=
  l.toList.filter (fun c => c ≠ ' ')

/-- `[m.start() for m in re.finditer(char, l)]`: ascending start positions
of the occurrences of `needle` in `hay`.  `re.finditer` yields
non-overlapping matches; the parser consults only emptiness and the first
position, on which the two notions agree. -/
def subPositions (needle hay : List Char) : List Nat :=
  (List.range hay.length).filter (fun i => needle.isPrefixOf (hay.drop i))

/-- Line classification of `parse_definition`: each `df.query` drops its
matches before the next query runs, so the four queries plus the
remainder classify with priority
header > dependency > attribute > divider > non-match. -/
def classify (line : String) : LineClass :=
  let l := stripSpaces line
  let hashPos := subPositions ['#'] l
  let colonPos := subPositions [':'] l
  let hasArrow := !(subPositions ['-', '>'] l).isEmpty
  let hasDivider := !(subPositions ['-', '-', '-'] l).isEmpty
  let hashPos0 := hashPos.contains 0
  let colonBeforeHash :=
    match colonPos, hashPos with
    | c :: _, h :: _ => decide (c < h)
    | _, _ => false
  if hashPos0 then .headers
  else if hasArrow then .dependencies
  else if (!colonPos.isEmpty && hashPos.isEmpty) || colonBeforeHash then .attributes
  else if hasDivider then .dividers
  else .nonMatches

/-- The `(index, line)` pairs of the lines of class `c` (the rows of the
query result for `c`, with their original DataFrame index). -/
def classPairs (lines : List String) (c : LineClass) : List (Nat × String) :=
  (lines.enum).filter (fun p => decide (classify p.2 = c))

/-- `parsed_inds[c]`: the ascending original line indexes of class `c`. -/
def parsedInds (lines : List String) (c : LineClass) : List Nat :=
  (classPairs lines c).map Prod.fst

/-- `parsed_contents[c]`: the original (unstripped) lines of class `c`. -/
def parsedContents (lines : List String) (c : LineClass) : List String :=
  (classPairs lines c).map Prod.snd

/-- `parse_definition` (heading.py lines 11-72): the pair of
`parsed_inds` and `parsed_contents` (`parsed_stats` only carries count
messages and is not consulted by `reform_definition`). -/
def parse_definition (lines : List String) :
    (LineClass → List Nat) × (LineClass → List String) :=
  (parsedInds lines, parsedContents lines)

/-- `reform_definition` (heading.py lines 75-94) before the final newline
join: allocate `n_lines` empty strings
(`n_lines = len(np.concatenate(list(parsed_inds.values())))`), then place
each content string at its recorded index. -/
def reform_list (inds : LineClass → List Nat) (contents : LineClass → List String) :
    List String :=
  let n := (LineClass.all.map (fun c => (inds c).length)).sum
  LineClass.all.foldl
    (fun acc c => ((inds c).zip (contents c)).foldl (fun a p => a.set p.1 p.2) acc)
    (List.replicate n "")

/-- `reform_definition`: the reconstructed lines, each with `"\n"`
appended (`definition += c + "\n"`). -/
def reform_definition (inds : LineClass → List Nat)
    (contents : LineClass → List String) : String :=
  String.join ((reform_list inds contents).map (fun c => c ++ "\n"))

theorem sum_filter_classes {α : Type} (g : α → LineClass) (L : List α) :
    ((LineClass.all.map (fun c => (L.filter (fun x => decide (g x = c))).length)).sum)
      = L.length := by
  induction L with
  | nil => rfl
  | cons x xs ih =>
    simp only [LineClass.all, List.map_cons, List.map_nil, List.sum_cons,
      List.sum_nil] at ih ⊢
    cases hg : g x <;>
      simp [List.filter_cons, hg] <;>
      omega

theorem mem_classPairs_getElem? {lines : List String} {c : LineClass}
    {p : Nat × String} (h : p ∈ classPairs lines c) : lines[p.1]? = some p.2 :=
  List.mem_enum_iff_getElem?.mp (List.mem_filter.mp h).1

theorem mem_classPairs_lt {lines : List String} {c : LineClass}
    {p : Nat × String} (h : p ∈ classPairs lines c) : p.1 < lines.length := by
  rcases List.getElem?_eq_some_iff.mp (mem_classPairs_getElem? h) with ⟨hlt, _⟩
  exact hlt

theorem getElem_mem_classPairs (lines : List String) (j : Nat) (hj : j < lines.length) :
    (j, lines[j]) ∈ classPairs lines (classify lines[j]) := by
  apply List.mem_filter.mpr
  refine ⟨List.mem_enum_iff_getElem?.mpr ?_, by simp⟩
  simp [hj]

theorem getElem?_foldl_set (pairs : List (Nat × String)) (acc : List String) (j : Nat)
    (v : String)
    (hall : ∀ p ∈ pairs, p.1 < acc.length)
    (hv : ∀ p ∈ pairs, p.1 = j → p.2 = v) :
    (pairs.foldl (fun a p => a.set p.1 p.2) acc)[j]? =
      if ∃ p ∈ pairs, p.1 = j then some v else acc[j]? := by
  induction pairs generalizing acc with
  | nil => simp
  | cons p ps ih =>
    simp only [List.foldl_cons]
    have hall' : ∀ q ∈ ps, q.1 < (acc.set p.1 p.2).length := by
      intro q hq
      simpa using hall q (List.mem_cons_of_mem _ hq)
    have hv' : ∀ q ∈ ps, q.1 = j → q.2 = v := fun q hq => hv q (List.mem_cons_of_mem _ hq)
    rw [ih (acc.set p.1 p.2) hall' hv']
    by_cases hpj : p.1 = j
    · have hjlen : j < acc.length := hpj ▸ hall p (List.mem_cons_self _ _)
      have hpv : p.2 = v := hv p (List.mem_cons_self _ _) hpj
      have hset : (acc.set p.1 p.2)[j]? = some v := by
        rw [List.getElem?_set]
        simp [hpj, hjlen, hpv]
      have hex : ∃ q ∈ p :: ps, q.1 = j := ⟨p, List.mem_cons_self _ _, hpj⟩
      rw [if_pos hex]
      by_cases hex' : ∃ q ∈ ps, q.1 = j
      · rw [if_pos hex']
      · rw [if_neg hex', hset]
    · have hset : (acc.set p.1 p.2)[j]? = acc[j]? := by
        rw [List.getElem?_set]
        simp [hpj]
      rw [hset]
      by_cases hex' : ∃ q ∈ ps, q.1 = j
      · have hex : ∃ q ∈ p :: ps, q.1 = j := by
          rcases hex' with ⟨q, hq, hqj⟩
          exact ⟨q, List.mem_cons_of_mem _ hq, hqj⟩
        rw [if_pos hex', if_pos hex]
      · have hex : ¬ ∃ q ∈ p :: ps, q.1 = j := by
          rintro ⟨q, hq, hqj⟩
          rcases List.mem_cons.mp hq with rfl | hq'
          · exact hpj hqj
          · exact hex' ⟨q, hq', hqj⟩
        rw [if_neg hex', if_neg hex]

theorem reform_list_parse (lines : List String) :
    reform_list (parsedInds lines) (parsedContents lines) = lines := by
  have hzip : ∀ c, (parsedInds lines c).zip (parsedContents lines c) = classPairs lines c := by
    intro c
    unfold parsedInds parsedContents
    rw [List.zip_map']
    simp
  have hn : ((LineClass.all.map (fun c => (parsedInds lines c).length)).sum) = lines.length := by
    have := sum_filter_classes (fun p : Nat × String => classify p.2) lines.enum
    simpa [parsedInds, classPairs, List.length_map] using this
  unfold reform_list
  simp only [hzip, hn]
  have hflat :
      LineClass.all.foldl
        (fun acc c => (classPairs lines c).foldl (fun a p => a.set p.1 p.2) acc)
        (List.replicate lines.length "") =
      ((LineClass.all.map (classPairs lines)).flatten).foldl
        (fun a p => a.set p.1 p.2) (List.replicate lines.length "") := by
    rw [List.foldl_flatten, List.foldl_map]
  rw [hflat]
  apply List.ext_getElem?
  intro j
  have hall : ∀ p ∈ (LineClass.all.map (classPairs lines)).flatten,
      p.1 < (List.replicate lines.length ("" : String)).length := by
    intro p hp
    rcases List.mem_flatten.mp hp with ⟨l, hl, hpl⟩
    rcases List.mem_map.mp hl with ⟨c, _, rfl⟩
    simpa using mem_classPairs_lt hpl
  have hv : ∀ p ∈ (LineClass.all.map (classPairs lines)).flatten,
      p.1 = j → p.2 = (lines[j]?).getD "" := by
    intro p hp hpj
    rcases List.mem_flatten.mp hp with ⟨l, hl, hpl⟩
    rcases List.mem_map.mp hl with ⟨c, _, rfl⟩
    have := mem_classPairs_getElem? hpl
    rw [hpj] at this
    simp [this]
  rw [getElem?_foldl_set _ _ j ((lines[j]?).getD "") hall hv]
  by_cases hj : j < lines.length
  · have hcmem : (j, lines[j]) ∈ classPairs lines (classify lines[j]) :=
      getElem_mem_classPairs lines j hj
    have hclass : classPairs lines (classify lines[j]) ∈ LineClass.all.map (classPairs lines) :=
      List.mem_map.mpr ⟨classify lines[j], by cases classify lines[j] <;> simp [LineClass.all], rfl⟩
    have hex : ∃ p ∈ (LineClass.all.map (classPairs lines)).flatten, p.1 = j :=
      ⟨(j, lines[j]), List.mem_flatten.mpr ⟨_, hclass, hcmem⟩, rfl⟩
    rw [if_pos hex]
    simp [hj]
  · have hex : ¬ ∃ p ∈ (LineClass.all.map (classPairs lines)).flatten, p.1 = j := by
      rintro ⟨p, hp, hpj⟩
      exact hj (by simpa [hpj] using hall p hp)
    rw [if_neg hex]
    rw [List.getElem?_replicate, if_neg hj]
    exact (List.getElem?_eq_none (by omega)).symm

/-- **C2.** Parse/reform round trip: for every definition (given as its
newline-split lines) with a well-formed header, `reform_definition` on the
output of `parse_definition` reproduces every line byte-identically at its
original line index — in particular every dependency, attribute, divider
and non-match line — so re-parsing the reformed definition yields header
contents (and hence header metadata) equal to the original. -/
theorem parse_reform_round_trip (lines : List String)
    (hheader : parsedContents lines LineClass.headers ≠ []) :
    reform_list (parse_definition lines).1 (parse_definition lines).2 = lines ∧
    (∀ j : Nat, (reform_list (parse_definition lines).1 (parse_definition lines).2)[j]? =
      lines[j]?) ∧
    parsedContents (reform_list (parse_definition lines).1 (parse_definition lines).2)
        LineClass.headers = parsedContents lines LineClass.headers ∧
    reform_definition (parse_definition lines).1 (parse_definition lines).2 =
      String.join (lines.map (fun c => c ++ "\n")) := by
  have h : reform_list (parse_definition lines).1 (parse_definition lines).2 = lines := by
    simpa only [parse_definition] using reform_list_parse lines
  refine ⟨h, fun j => by rw [h], by rw [h], ?_⟩
  unfold reform_definition
  rw [h]

/-- Witness for C2 at a concrete definition with a header, a dependency,
an attribute, a divider and a non-matching line. -/
theorem parse_reform_round_trip_witness :
    parsedContents ["# my table", "-> upstream", "a : int # key", "---", "misc"]
        LineClass.headers ≠ [] ∧
    reform_list
        (parse_definition ["# my table", "-> upstream", "a : int # key", "---", "misc"]).1
        (parse_definition ["# my table", "-> upstream", "a : int # key", "---", "misc"]).2 =
      ["# my table", "-> upstream", "a : int # key", "---", "misc"] :=
  ⟨by decide,
   (parse_reform_round_trip ["# my table", "-> upstream", "a : int # key", "---", "misc"]
      (by decide)).1⟩

deriving instance DecidableEq for Except

/-! ## Errors

The exception classes of src/datajoint_plus/errors.py that the embedded
code raises, plus the Python builtins (`AssertionError`,
`NotImplementedError`, `AttributeError`) and DataJoint's own error that
the same code paths raise. -/
inductive DJError where
  | validationError (msg : String)
  | overwriteError (msg : String)
  | assertionError (msg : String)
  | notImplementedError (msg : String)
  | attributeError (msg : String)
  | dataJointError (msg : String)
deriving DecidableEq, Repr

/-! ## Validation (src/datajoint_plus/validation.py) -/

/-- The first pair of named sets, in `itertools.combinations` order, that
fails `set.isdisjoint`. -/
def firstNonDisjointPair : List (String × List String) → Option (String × String)
  | [] => none
  | s :: rest =>
    match rest.find? (fun t => s.2.any (fun a => t.2.contains a)) with
    | some t => some (s.1, t.1)
    | none => firstNonDisjointPair rest

/-- `pairwise_disjoint_set_validation(sets, set_names, error)`
(validation.py lines 13-31), named variant (the embedded callers always
pass `set_names`): raise `error` naming the first non-disjoint pair. -/
def pairwise_disjoint_set_validation (sets : List (String × List String))
    (err : String → DJError) : Except DJError Unit :=
  match firstNonDisjointPair sets with
  | some (n1, n2) =>
    .error (err ("attributes in \"" ++ n1 ++ "\" and \"" ++ n2 ++ "\" must be disjoint."))
  | none => .ok ()

/-- `_is_overwrite_validated(attr, group, overwrite_rows)`
(validation.py lines 62-72): `group` is the column list of the rows
DataFrame and `attr` the optional hash attribute name
(`None in df` is false in pandas). -/
def _is_overwrite_validated (attr : Option String) (group : List String)
    (overwrite_rows : Bool) : Except DJError Bool :=
  if !overwrite_rows then
    match attr with
    | some a =>
      if group.contains a then
        .error (.overwriteError
          ("Attribute \"" ++ a ++ "\" already in rows. To overwrite, set overwrite_rows=True."))
      else .ok true
    | none => .ok true
  else .ok true

/-! ## Row preparation pipeline (src/datajoint_plus/base.py, class Base) -/

/-- The hash configuration of a table class (the `Base` class attributes
consulted by the insert pipeline).  The boolean-typed fields reflect the
type asserts of `_init_validation`; `hash_name` carries the normalized
single attribute and `hashed_attrs` the normalized list.
`hash_table_name` stands for the effective flag (`cls.hash_table_name`,
or the master's `hash_part_table_names` for a part table). -/
structure TableConfig where
  enable_hashing : Bool
  hash_name : Option String
  hashed_attrs : Option (List String)
  hash_group : Bool
  hash_table_name : Bool
  hash_len : Nat
deriving DecidableEq, Repr

/-- `Base._init_validation` (base.py lines 52-109) restricted to its
validation effect (its header-rewriting side effect is the header codec
above): hashing requires `hash_name` and `hashed_attrs`, and
`{hash_name}` and `hashed_attrs` must be pairwise disjoint — checked with
`error=NotImplementedError` (base.py line 94).  `__init_subclass__` runs
this at class-definition time. -/
def _init_validation (cfg : TableConfig) : Except DJError Unit :=
  if cfg.enable_hashing ∧ cfg.hash_name = none then
    .error (.notImplementedError
      "Hashing requires class to implement the property \"hash_name\".")
  else if cfg.enable_hashing ∧ cfg.hashed_attrs = none then
    .error (.notImplementedError
      "Hashing requires class to implement the property \"hashed_attrs\".")
  else
    let sets :=
      (match cfg.hash_name with
        | some h => [("hash_name", [h])]
        | none => []) ++
      (match cfg.hashed_attrs with
        | some as => [("hashed_attrs", as)]
        | none => [])
    pairwise_disjoint_set_validation sets .notImplementedError

/-- The column list of `format_rows_to_df(rows)` for a list of dict rows:
the union of the record keys (order of first appearance; only membership
is consulted downstream). -/
def dfColumns (rows : List Row) : List String :=
  (rows.flatMap (fun r => r.map Prod.fst)).dedup

/-- `df[name] = v` on one record: replace the field if present, append
otherwise (column position is not tracked by the embedding; the hashing
canonical form sorts columns anyway). -/
def setField (r : Row) (name : String) (v : Value) : Row :=
  r.filter (fun f => !(f.1 == name)) ++ [(name, v)]

/-- `rows[k] = v` for a scalar `v`: one constant column on every record. -/
def setConstColumn (rows : List Row) (name : String) (v : Value) : List Row :=
  rows.map (fun r => setField r name v)

/-- `rows[k] = vals` for a per-record list `vals`. -/
def setColumnVals (rows : List Row) (name : String) (vals : List Value) : List Row :=
  (rows.zip vals).map (fun p => setField p.1 name p.2)

/-- `Base.add_constant_attrs_to_rows` (base.py lines 144-162): add each
constant attribute to every row behind the overwrite guard. -/
def add_constant_attrs_to_rows (rows : List Row) (constant_attrs : Row)
    (overwrite_rows : Bool) : Except DJError (List Row) :=
  constant_attrs.foldlM
    (fun rs kv =>
      match _is_overwrite_validated (some kv.1) (dfColumns rs) overwrite_rows with
      | .error e => .error e
      | .ok _ => .ok (setConstColumn rs kv.1 kv.2))
    rows

/-- `rows[[*cls.hashed_attrs]]`: one record restricted to the hashed
attributes, in `hashed_attrs` order. -/
def projectRow (attrs : List String) (r : Row) : Row :=
  attrs.filterMap (fun a => (r.find? (fun f => f.1 == a)).map (fun f => (a, f.2)))

/-- `Base.add_hash_to_rows` (base.py lines 353-386): assert
`hashed_attrs` configured and present in the rows (first missing one
reported), guard the `hash_name` column against overwrite, then write the
`hash_name` column with the truncated group hash (`hash_group`) or
truncated per-record hashes.  When the effective `hash_table_name` flag
is set, the table identity `tableId` is mixed in as the constant
`table_id` column.  A hashing-enabled class always has `hash_name` set
(`_init_validation`); the `none` fallthrough returns the rows unchanged
and is unreachable from `_prepare_insert`. -/
def add_hash_to_rows (digest : String → String) (cfg : TableConfig) (tableId : String)
    (rows : List Row) (overwrite_rows : Bool) : Except DJError (List Row) :=
  match cfg.hashed_attrs with
  | none =>
    .error (.assertionError
      "Table must have hashed_attrs defined. Check if hashing was enabled for this table.")
  | some hashedAttrs =>
    let tid : Option Row :=
      if cfg.hash_table_name then some [("table_id", Value.str tableId)] else none
    let cols := dfColumns rows
    match hashedAttrs.find? (fun a => !(cols.contains a)) with
    | some a => .error (.assertionError ("hashed_attr \"" ++ a ++ "\" not in rows."))
    | none =>
      match _is_overwrite_validated cfg.hash_name cols overwrite_rows with
      | .error e => .error e
      | .ok _ =>
        match cfg.hash_name with
        | none => .ok rows
        | some hn =>
          let rowsToHash := rows.map (projectRow hashedAttrs)
          if cfg.hash_group then
            .ok (setConstColumn rows hn
              (Value.str ((generate_hash digest rowsToHash tid).take cfg.hash_len)))
          else
            .ok (setColumnVals rows hn
              (rowsToHash.map (fun r =>
                Value.str ((generate_hash digest [r] tid).take cfg.hash_len))))

/-- `Base._prepare_insert` (base.py lines 388-409): add the constant
attributes, then hash unless hashing is disabled or skipped, appending
the `skip_hashing` hint to an `OverwriteError` raised by the hashing
step.  The class-level `_insert_validation` checks concern the live table
heading and are modeled as passing. -/
def _prepare_insert (digest : String → String) (cfg : TableConfig) (tableId : String)
    (rows : List Row) (constant_attrs : Row) (overwrite_rows skip_hashing : Bool) :
    Except DJError (List Row) :=
  match (if constant_attrs ≠ [] then
      add_constant_attrs_to_rows rows constant_attrs overwrite_rows
    else .ok rows) with
  | .error e => .error e
  | .ok rows' =>
    if cfg.enable_hashing ∧ ¬skip_hashing then
      match add_hash_to_rows digest cfg tableId rows' overwrite_rows with
      | .error (.overwriteError m) =>
        .error (.overwriteError (m ++ " Or, to skip the hashing step, set skip_hashing=True."))
      | r => r
    else .ok rows'

/-- `BaseMaster.insert` without a part cascade (base.py lines 852-871 and
908-913): prepare the rows, then hand them to the relational engine
(`super().insert`), which appends them to the stored table. -/
def insert (digest : String → String) (cfg : TableConfig) (tableId : String)
    (stored rows : List Row) (constant_attrs : Row)
    (overwrite_rows skip_hashing : Bool) : Except DJError (List Row) :=
  match _prepare_insert digest cfg tableId rows constant_attrs overwrite_rows skip_hashing with
  | .error e => .error e
  | .ok prepared => .ok (stored ++ prepared)

/-- The table contents after an `insert` call: an error raised during
preparation propagates before the engine insert executes, so the stored
rows are unchanged. -/
def tableAfterInsert (digest : String → String) (cfg : TableConfig) (tableId : String)
    (stored rows : List Row) (constant_attrs : Row)
    (overwrite_rows skip_hashing : Bool) : List Row :=
  match insert digest cfg tableId stored rows constant_attrs overwrite_rows skip_hashing with
  | .error _ => stored
  | .ok s => s

/-- **C8 (counterexample).** A class with `hash_name = "a"` also listed
in `hashed_attrs` is rejected by `_init_validation` at class-definition
time — but with `NotImplementedError` (validation.py is invoked with
`error=NotImplementedError`, base.py line 94), not with the
`ValidationError` the claim names. -/
theorem init_validation_disjointness_counterexample :
    _init_validation ⟨true, some "a", some ["a"], false, false, 32⟩ =
      .error (.notImplementedError
        "attributes in \"hash_name\" and \"hashed_attrs\" must be disjoint.") ∧
    (match _init_validation ⟨true, some "a", some ["a"], false, false, 32⟩ with
      | .error (.validationError _) => False
      | _ => True) := by
  exact ⟨rfl, trivial⟩

/-- **C8 (amended).** For every table class whose `hash_name` appears
among its `hashed_attrs`, `_init_validation` — executed at
class-definition time by `__init_subclass__`, hence before any insert —
raises `NotImplementedError` reporting the disjointness violation. -/
theorem init_validation_disjointness (cfg : TableConfig) (h : String)
    (attrs : List String) (hn : cfg.hash_name = some h)
    (ha : cfg.hashed_attrs = some attrs) (hmem : h ∈ attrs) :
    _init_validation cfg = .error (.notImplementedError
      "attributes in \"hash_name\" and \"hashed_attrs\" must be disjoint.") := by
  unfold _init_validation
  simp [hn, ha, pairwise_disjoint_set_validation, firstNonDisjointPair, hmem]

/-- Witness for C8 (amended) at a concrete overlapping configuration. -/
theorem init_validation_disjointness_witness :
    _init_validation ⟨true, some "h", some ["x", "h"], false, false, 32⟩ =
      .error (.notImplementedError
        "attributes in \"hash_name\" and \"hashed_attrs\" must be disjoint.") :=
  init_validation_disjointness ⟨true, some "h", some ["x", "h"], false, false, 32⟩
    "h" ["x", "h"] rfl rfl (by decide)

/-- **C3 (counterexample).** A hashing-enabled table with
`hashed_attrs = ["a"]`: inserting `[{h: "x"}]` — the hash attribute
already carries a value but the hashed attribute is missing — raises the
hashed-attrs `AssertionError` of `add_hash_to_rows` (base.py line 375),
which runs before the overwrite guard (line 377), so the call does not
raise `OverwriteError` as the claim states. -/
theorem overwrite_guard_counterexample :
    insert (fun s => s) ⟨true, some "h", some ["a"], false, false, 32⟩ "tid"
      [] [[("h", Value.str "x")]] [] false false =
      .error (.assertionError "hashed_attr \"a\" not in rows.") := by
  rfl

/-- **C3 (amended).** For every hashing-enabled table and every row set
that contains every `hashed_attrs` column and already carries a value for
the hash attribute, `insert` (default `constant_attrs={}`) and
`add_hash_to_rows` without the overwrite flag raise `OverwriteError`, and
no row is inserted: the stored table is unchanged. -/
theorem overwrite_guard (digest : String → String) (cfg : TableConfig) (tableId : String)
    (stored rows : List Row) (hn : String) (attrs : List String)
    (henable : cfg.enable_hashing = true)
    (hhn : cfg.hash_name = some hn)
    (hattrs : cfg.hashed_attrs = some attrs)
    (hpresent : ∀ a ∈ attrs, a ∈ dfColumns rows)
    (hcol : hn ∈ dfColumns rows) :
    add_hash_to_rows digest cfg tableId rows false =
      .error (.overwriteError
        ("Attribute \"" ++ hn ++ "\" already in rows. To overwrite, set overwrite_rows=True.")) ∧
    insert digest cfg tableId stored rows [] false false =
      .error (.overwriteError
        ("Attribute \"" ++ hn ++ "\" already in rows. To overwrite, set overwrite_rows=True." ++
          " Or, to skip the hashing step, set skip_hashing=True.")) ∧
    tableAfterInsert digest cfg tableId stored rows [] false false = stored := by
  have hfind : attrs.find? (fun a => !((dfColumns rows).contains a)) = none := by
    apply List.find?_eq_none.mpr
    intro a hamem
    simp [hpresent a hamem]
  have hhash : add_hash_to_rows digest cfg tableId rows false =
      .error (.overwriteError
        ("Attribute \"" ++ hn ++ "\" already in rows. To overwrite, set overwrite_rows=True.")) := by
    unfold add_hash_to_rows
    rw [hattrs]
    simp only [hfind]
    unfold _is_overwrite_validated
    rw [hhn]
    simp [hcol]
  refine ⟨hhash, ?_, ?_⟩
  · unfold insert _prepare_insert
    simp [henable, hhash]
  · unfold tableAfterInsert insert _prepare_insert
    simp [henable, hhash]

/-- Witness for C3 (amended) at a concrete hashing-enabled table and a
row that already carries the hash attribute. -/
theorem overwrite_guard_witness :
    insert (fun s => s) ⟨true, some "h", some ["a"], false, false, 32⟩ "tid"
      [[("a", Value.int 7), ("h", Value.str "old")]]
      [[("a", Value.int 1), ("h", Value.str "x")]] [] false false =
      .error (.overwriteError
        ("Attribute \"h\" already in rows. To overwrite, set overwrite_rows=True." ++
          " Or, to skip the hashing step, set skip_hashing=True.")) :=
  (overwrite_guard (fun s => s) ⟨true, some "h", some ["a"], false, false, 32⟩ "tid"
    [[("a", Value.int 7), ("h", Value.str "old")]]
    [[("a", Value.int 1), ("h", Value.str "x")]] "h" ["a"]
    rfl rfl rfl (by decide) (by decide)).2.1

/-! ## Insert cascades and transactions
(`BaseMaster.insert` with `insert_to_parts`, base.py lines 852-913, and
`BasePart.insert` with `insert_to_master`, lines 976-1020)

The relational engine is the external collaborator here; its contract
(spec §6): a connection answers `in_transaction`, and a
`with connection.transaction` block commits the inner writes on success
and rolls the database back to the entry state when an exception escapes.
The database state is abstract (`σ`); each single-table insert is a state
transformer that either fails (leaving `σ` unchanged — a single engine
insert is atomic) or returns the new state.  Event traces record which
engine primitives ran. -/

inductive TxEvent where
  | beginTx
  | commitTx
  | rollbackTx
  | insertMaster
  | insertPart (i : Nat)
deriving DecidableEq, Repr

/-- The part-insert loop of `BaseMaster.insert`
(`for part in insert_to_parts: part.insert(rows=rows, ...)`): run the
part inserts in order, stopping at the first failure; returns the state
reached, the error if any, and the trace. -/
def runPartInserts {σ E : Type} : List (Nat × (σ → Except E σ)) → σ →
    σ × Option E × List TxEvent
  | [], s => (s, none, [])
  | (i, f) :: rest, s =>
    match f s with
    | .error e => (s, some e, [.insertPart i])
    | .ok s' =>
      let (t, e?, evs) := runPartInserts rest s'
      (t, e?, .insertPart i :: evs)

/-- The cascade body of `BaseMaster.insert` with `insert_to_parts`:
`super().insert(...)` on the master, then each part insert. -/
def masterCascadeBody {σ E : Type} (mIns : σ → Except E σ)
    (pIns : List (σ → Except E σ)) (s : σ) : σ × Option E × List TxEvent :=
  match mIns s with
  | .error e => (s, some e, [.insertMaster])
  | .ok s' =>
    let (t, e?, evs) := runPartInserts pIns.enum s'
    (t, e?, .insertMaster :: evs)

/-- `BaseMaster.insert` with `insert_to_parts` (base.py lines 873-906):
when `dj.conn()` is not already in a transaction, the cascade runs inside
`with dj.conn().transaction` (errors roll the state back and re-raise);
when it is, the cascade runs directly in the caller's transaction. -/
def masterInsertWithParts {σ E : Type} (inTransaction : Bool)
    (mIns : σ → Except E σ) (pIns : List (σ → Except E σ)) (s : σ) :
    σ × Option E × List TxEvent :=
  if !inTransaction then
    match masterCascadeBody mIns pIns s with
    | (s', none, evs) => (s', none, .beginTx :: evs ++ [.commitTx])
    | (_, some e, evs) => (s, some e, .beginTx :: evs ++ [.rollbackTx])
  else
    masterCascadeBody mIns pIns s

/-- The cascade body of `BasePart.insert` with `insert_to_master=True`
(base.py lines 996-1013): `cls.master.insert(...)` first, then
`super().insert(...)` on the part itself. -/
def partCascadeBody {σ E : Type} (mIns pSelf : σ → Except E σ) (s : σ) :
    σ × Option E × List TxEvent :=
  match mIns s with
  | .error e => (s, some e, [.insertMaster])
  | .ok s' =>
    match pSelf s' with
    | .error e => (s', some e, [.insertMaster, .insertPart 0])
    | .ok s'' => (s'', none, [.insertMaster, .insertPart 0])

/-- `BasePart.insert` with `insert_to_master=True`, under the same
transaction-wrapping rule as the master-driven cascade. -/
def partInsertWithMaster {σ E : Type} (inTransaction : Bool)
    (mIns pSelf : σ → Except E σ) (s : σ) : σ × Option E × List TxEvent :=
  if !inTransaction then
    match partCascadeBody mIns pSelf s with
    | (s', none, evs) => (s', none, .beginTx :: evs ++ [.commitTx])
    | (_, some e, evs) => (s, some e, .beginTx :: evs ++ [.rollbackTx])
  else
    partCascadeBody mIns pSelf s

/-- **C4.** Cascading inserts are transactional: outside a transaction,
any failure of the cascade (in particular of any part insert) leaves the
database in its original state — no orphaned master row; inside a
caller's transaction, the cascade runs without opening a nested
transaction (no `beginTx` in its trace).  Both directions hold for the
master-driven cascade (`insert_to_parts`) and the part-driven cascade
(`insert_to_master`). -/
theorem insert_cascade_transactional {σ E : Type} (mIns pSelf : σ → Except E σ)
    (pIns : List (σ → Except E σ)) (s : σ) :
    (∀ e : E, (masterInsertWithParts false mIns pIns s).2.1 = some e →
      (masterInsertWithParts false mIns pIns s).1 = s) ∧
    TxEvent.beginTx ∉ (masterInsertWithParts true mIns pIns s).2.2 ∧
    (∀ e : E, (partInsertWithMaster false mIns pSelf s).2.1 = some e →
      (partInsertWithMaster false mIns pSelf s).1 = s) ∧
    TxEvent.beginTx ∉ (partInsertWithMaster true mIns pSelf s).2.2 := by
  have hrun : ∀ (ps : List (Nat × (σ → Except E σ))) (t : σ),
      TxEvent.beginTx ∉ (runPartInserts ps t).2.2 := by
    intro ps
    induction ps with
    | nil => intro t; simp [runPartInserts]
    | cons p rest ih =>
      intro t
      obtain ⟨i, f⟩ := p
      cases hft : f t with
      | error e => simp [runPartInserts, hft]
      | ok t' => simpa [runPartInserts, hft] using ih t'
  have hmNoBegin : TxEvent.beginTx ∉ (masterCascadeBody mIns pIns s).2.2 := by
    unfold masterCascadeBody
    cases hm : mIns s with
    | error e => simp
    | ok s' => simpa using hrun pIns.enum s'
  have hpNoBegin : TxEvent.beginTx ∉ (partCascadeBody mIns pSelf s).2.2 := by
    unfold partCascadeBody
    cases hm : mIns s with
    | error e => simp
    | ok s' =>
      cases hp : pSelf s' with
      | error e => simp [hp]
      | ok s'' => simp [hp]
  refine ⟨?_, ?_, ?_, ?_⟩
  · intro e he
    unfold masterInsertWithParts at he ⊢
    match hbody : masterCascadeBody mIns pIns s with
    | (s', none, evs) =>
      rw [hbody] at he
      simp at he
    | (t, some e', evs) => simp
  · unfold masterInsertWithParts
    simpa using hmNoBegin
  · intro e he
    unfold partInsertWithMaster at he ⊢
    match hbody : partCascadeBody mIns pSelf s with
    | (s', none, evs) =>
      rw [hbody] at he
      simp at he
    | (t, some e', evs) => simp
  · unfold partInsertWithMaster
    simpa using hpNoBegin

/-- Witness for C4 at a concrete database: the master insert succeeds and
the single part insert fails, so outside a transaction the rollback
restores the empty state. -/
theorem insert_cascade_transactional_witness :
    (masterInsertWithParts false (fun s => .ok (s ++ [0]))
      [fun _ => .error "part failed"] ([] : List Nat)).1 = [] :=
  (insert_cascade_transactional (fun s => .ok (s ++ [0])) (fun s => .ok s)
    [fun _ => .error "part failed"] []).1 "part failed" rfl

/-! ## Master/part consistency engine
(src/datajoint_plus/base.py, class BaseMaster) -/

/-- A table as the consistency engine sees it: its `full_table_name`, its
heading attribute names, and its stored rows.  Only heading membership,
row lookup and row count are consulted. -/
structure PartTable where
  name : String
  heading : List String
  rows : List Row
deriving DecidableEq, Repr

/-- `r[k]` on one record. -/
def lookupRow (r : Row) (k : String) : Option Value :=
  (r.find? (fun f => f.1 == k)).map Prod.snd

/-- DataJoint dict restriction `p & restr`: a row matches when it agrees
with the restriction on every attribute the heading shares with it
(restriction keys absent from the heading are ignored by DataJoint). -/
def matchesRestr (heading : List String) (restr : Row) (r : Row) : Bool :=
  restr.all (fun kv => if kv.1 ∈ heading then lookupRow r kv.1 == some kv.2 else true)

def restrictPart (p : PartTable) (restr : Row) : PartTable :=
  ⟨p.name, p.heading, p.rows.filter (matchesRestr p.heading restr)⟩

/-- `BaseMaster.restrict_parts` (base.py lines 716-748): assert the
master has part tables, select `include_parts` (default: all parts),
drop `exclude_parts` by full table name, restrict every remaining part by
`part_restr` (`filter_out_disjoint` first drops parts whose heading is
disjoint from the restriction's columns), and optionally drop parts left
with zero rows. -/
def restrict_parts (parts : List PartTable) (part_restr : Row)
    (include_parts exclude_parts : Option (List PartTable))
    (filter_out_disjoint filter_out_len_zero : Bool) :
    Except DJError (List PartTable) :=
  if parts.isEmpty then
    .error (.assertionError
      "No part tables found. If you are expecting part tables, try with reload_dependencies=True.")
  else
    let ps := match include_parts with
      | none => parts
      | some inc => inc
    let ps := match exclude_parts with
      | none => ps
      | some exc => ps.filter (fun p => !((exc.map PartTable.name).contains p.name))
    let ps := if filter_out_disjoint then
        (ps.filter (fun p => p.heading.any (fun a => (part_restr.map Prod.fst).contains a))).map
          (fun p => restrictPart p part_restr)
      else ps.map (fun p => restrictPart p part_restr)
    let ps := if filter_out_len_zero then ps.filter (fun p => !p.rows.isEmpty) else ps
    .ok ps

/-- `BaseMaster.restrict_one_part` (base.py lines 750-768; alias `r1p`):
`restrict_parts` (its call sets `filter_out_disjoint=True` and
`filter_out_len_zero=True` by default), then require exactly one part. -/
def restrict_one_part (parts : List PartTable) (part_restr : Row)
    (include_parts exclude_parts : Option (List PartTable))
    (filter_out_disjoint filter_out_len_zero : Bool) : Except DJError PartTable :=
  match restrict_parts parts part_restr include_parts exclude_parts
      filter_out_disjoint filter_out_len_zero with
  | .error e => .error e
  | .ok ps =>
    match ps with
    | _ :: _ :: _ => .error (.validationError "part_restr can restrict multiple part tables.")
    | [] => .error (.validationError "part_restr can not restrict any part tables.")
    | [p] => .ok p

/-- `BaseMaster.restrict_parts_with_hash` (base.py lines 806-831): fall
back to the master's `hash_name` when none is supplied (ValidationError
when neither exists), restrict all parts by `{hash_name: hash}` (note:
`filter_out_disjoint` is not passed, so it is False, and the Python
default of `filter_out_len_zero` here is False), and keep only the parts
whose heading contains the hash attribute. -/
def restrict_parts_with_hash (cls_hash_name : Option String) (parts : List PartTable)
    (hash : Value) (hash_name : Option String)
    (include_parts exclude_parts : Option (List PartTable))
    (filter_out_len_zero : Bool) : Except DJError (List PartTable) :=
  let hn := match hash_name with
    | none => cls_hash_name
    | some h => some h
  match hn with
  | none =>
    .error (.validationError
      "Table does not have \"hash_name\" defined, provide it to restrict with hash.")
  | some hn =>
    match restrict_parts parts [(hn, hash)] include_parts exclude_parts false
        filter_out_len_zero with
    | .error e => .error e
    | .ok ps => .ok (ps.filter (fun p => p.heading.contains hn))

/-- `BaseMaster.restrict_one_part_with_hash` (base.py lines 784-802;
alias `r1pwh`): `restrict_parts_with_hash` (called with
`filter_out_len_zero=True` by default), then require exactly one part. -/
def restrict_one_part_with_hash (cls_hash_name : Option String) (parts : List PartTable)
    (hash : Value) (hash_name : Option String)
    (include_parts exclude_parts : Option (List PartTable))
    (filter_out_len_zero : Bool) : Except DJError PartTable :=
  match restrict_parts_with_hash cls_hash_name parts hash hash_name include_parts
      exclude_parts filter_out_len_zero with
  | .error e => .error e
  | .ok ps =>
    match ps with
    | _ :: _ :: _ => .error (.validationError "Hash found in multiple part tables.")
    | [] => .error (.validationError "Hash not found in any part tables.")
    | [p] => .ok p

/-- `dj.U(name) & p`: the values of attribute `name` appearing in `p`
(DataJoint raises when `name` is not in `p`'s heading). -/
def partAttrValues (name : String) (p : PartTable) : List Value :=
  p.rows.filterMap (fun r => lookupRow r name)

/-- `BaseMaster.hashes_not_in_parts` (base.py lines 833-849): resolve the
hash name for the validation check, restrict the parts, then subtract
`np.sum([dj.U(cls.hash_name) & p for p in parts])` from the master.  The
query is built from `cls.hash_name`, not from the resolved name.
`dj.U(None)`, an empty part sum (`np.sum([]) = 0` as a restriction) and a
missing attribute in a part are DataJoint errors. -/
def hashes_not_in_parts (master : PartTable) (cls_hash_name : Option String)
    (parts : List PartTable) (hash_name : Option String) (part_restr : Row)
    (include_parts exclude_parts : Option (List PartTable))
    (filter_out_len_zero : Bool) : Except DJError (List Row) :=
  let hn := match hash_name with
    | none => cls_hash_name
    | some h => some h
  match hn with
  | none =>
    .error (.validationError
      "Table does not have \"hash_name\" defined, provide it to restrict with hash.")
  | some _ =>
    match restrict_parts parts part_restr include_parts exclude_parts false
        filter_out_len_zero with
    | .error e => .error e
    | .ok ps =>
      match cls_hash_name with
      | none => .error (.dataJointError "Invalid restriction")
      | some chn =>
        if ps.isEmpty then .error (.dataJointError "Invalid restriction")
        else if ps.all (fun p => p.heading.contains chn) then
          let vals := ps.flatMap (partAttrValues chn)
          .ok (master.rows.filter (fun r =>
            match lookupRow r chn with
            | some v => !(vals.contains v)
            | none => true))
        else .error (.dataJointError "Attribute not found")

/-- The claim's reading of `hashes_not_in_parts` (spec §4.4,
`hashes_absent_from_parts`), written from the spec's words: the master
rows whose value of the RESOLVED hash attribute (caller-supplied, or
defaulting to the configured one) is not present in the union of the
given parts. -/
def claimedHashesNotInParts (master : PartTable) (hashName : String)
    (parts : List PartTable) : List Row :=
  master.rows.filter (fun r =>
    match lookupRow r hashName with
    | some v => !((parts.flatMap (partAttrValues hashName)).contains v)
    | none => true)

/-- `Base.restrict_with_hash` (base.py lines 213-233): fall back to
`cls.hash_name` when no name is supplied, raise ValidationError when
neither exists, and return `cls & {cls.hash_name: hash}` — the
restriction key is `cls.hash_name`, not the resolved name (line 233).
With `cls.hash_name = None` but a supplied name, the restriction
`{None: hash}` has no key in the heading and DataJoint ignores it. -/
def restrict_with_hash (table : PartTable) (cls_hash_name : Option String)
    (hash : Value) (hash_name : Option String) : Except DJError PartTable :=
  let hn := match hash_name with
    | none => cls_hash_name
    | some h => some h
  match hn with
  | none =>
    .error (.validationError
      "Table does not have \"hash_name\" defined, provide it to restrict with hash.")
  | some _ =>
    match cls_hash_name with
    | some chn => .ok (restrictPart table [(chn, hash)])
    | none => .ok table

/-- **C5.** Exactly-one resolution: when the restriction leaves zero part
tables, `restrict_one_part` raises `ValidationError("part_restr can not
restrict any part tables.")`; when it leaves two or more it raises the
distinct `ValidationError("part_restr can restrict multiple part
tables.")`; otherwise it returns the single remaining part.
`restrict_one_part_with_hash` behaves the same with its own two distinct
errors. -/
theorem restrict_one_part_exactly_one (parts : List PartTable) (part_restr : Row)
    (include_parts exclude_parts : Option (List PartTable)) (fod foz : Bool)
    (cls_hash_name : Option String) (hash : Value) (hash_name : Option String)
    (ps qs : List PartTable)
    (hok : restrict_parts parts part_restr include_parts exclude_parts fod foz = .ok ps)
    (hok2 : restrict_parts_with_hash cls_hash_name parts hash hash_name include_parts
      exclude_parts foz = .ok qs) :
    ((ps = [] →
        restrict_one_part parts part_restr include_parts exclude_parts fod foz =
          .error (.validationError "part_restr can not restrict any part tables.")) ∧
      (2 ≤ ps.length →
        restrict_one_part parts part_restr include_parts exclude_parts fod foz =
          .error (.validationError "part_restr can restrict multiple part tables.")) ∧
      (∀ p, ps = [p] →
        restrict_one_part parts part_restr include_parts exclude_parts fod foz = .ok p)) ∧
    ((qs = [] →
        restrict_one_part_with_hash cls_hash_name parts hash hash_name include_parts
            exclude_parts foz =
          .error (.validationError "Hash not found in any part tables.")) ∧
      (2 ≤ qs.length →
        restrict_one_part_with_hash cls_hash_name parts hash hash_name include_parts
            exclude_parts foz =
          .error (.validationError "Hash found in multiple part tables.")) ∧
      (∀ p, qs = [p] →
        restrict_one_part_with_hash cls_hash_name parts hash hash_name include_parts
            exclude_parts foz = .ok p)) ∧
    (DJError.validationError "part_restr can not restrict any part tables." ≠
      DJError.validationError "part_restr can restrict multiple part tables.") ∧
    (DJError.validationError "Hash not found in any part tables." ≠
      DJError.validationError "Hash found in multiple part tables.") := by
  refine ⟨⟨?_, ?_, ?_⟩, ⟨?_, ?_, ?_⟩, by decide, by decide⟩
  · intro h
    subst h
    unfold restrict_one_part
    rw [hok]
  · intro h
    match ps, h with
    | p :: p' :: rest, _ =>
      unfold restrict_one_part
      rw [hok]
  · intro p h
    subst h
    unfold restrict_one_part
    rw [hok]
  · intro h
    subst h
    unfold restrict_one_part_with_hash
    rw [hok2]
  · intro h
    match qs, h with
    | p :: p' :: rest, _ =>
      unfold restrict_one_part_with_hash
      rw [hok2]
  · intro p h
    subst h
    unfold restrict_one_part_with_hash
    rw [hok2]

/-- Witness for C5 at a master with two parts: the restriction leaves
exactly one part and both resolvers return it. -/
theorem restrict_one_part_exactly_one_witness :
    restrict_one_part
      [⟨"`db`.`m__p1`", ["h"], [[("h", Value.str "A")]]⟩,
       ⟨"`db`.`m__p2`", ["y"], [[("y", Value.int 1)]]⟩]
      [("h", Value.str "A")] none none true true =
      .ok ⟨"`db`.`m__p1`", ["h"], [[("h", Value.str "A")]]⟩ ∧
    restrict_one_part_with_hash (some "h")
      [⟨"`db`.`m__p1`", ["h"], [[("h", Value.str "A")]]⟩,
       ⟨"`db`.`m__p2`", ["y"], [[("y", Value.int 1)]]⟩]
      (Value.str "A") none none none true =
      .ok ⟨"`db`.`m__p1`", ["h"], [[("h", Value.str "A")]]⟩ := by
  have h := restrict_one_part_exactly_one
    [⟨"`db`.`m__p1`", ["h"], [[("h", Value.str "A")]]⟩,
     ⟨"`db`.`m__p2`", ["y"], [[("y", Value.int 1)]]⟩]
    [("h", Value.str "A")] none none true true (some "h") (Value.str "A") none
    [⟨"`db`.`m__p1`", ["h"], [[("h", Value.str "A")]]⟩]
    [⟨"`db`.`m__p1`", ["h"], [[("h", Value.str "A")]]⟩]
    (by decide) (by decide)
  exact ⟨h.1.2.2 _ rfl, h.2.1.2.2 _ rfl⟩

/-- **C6 (counterexample).** With the Python default
`filter_out_len_zero=False` of `restrict_parts_with_hash` (base.py line
807), a part whose heading contains the hash attribute is returned even
when its restricted result is empty, contradicting the claim's "by
default (filter_empty=True) ... non-empty restricted result" (the
default is True only in `restrict_one_part_with_hash` and
`part_table_names_with_hash`). -/
theorem restrict_parts_with_hash_default_counterexample :
    restrict_parts_with_hash (some "h")
      [⟨"`db`.`m__p`", ["h"], [[("h", Value.str "A")]]⟩]
      (Value.str "Z") none none none false =
      .ok [⟨"`db`.`m__p`", ["h"], []⟩] ∧
    restrict_parts_with_hash (some "h")
      [⟨"`db`.`m__p`", ["h"], [[("h", Value.str "A")]]⟩]
      (Value.str "Z") none none none false ≠ .ok [] := by
  exact ⟨by decide, by decide⟩

/-- **C6 (amended).** `restrict_parts_with_hash` restricts every part by
`{hash_name: hash}` and returns exactly the restricted parts whose
heading contains the hash attribute — keeping only those with a
non-empty restricted result when `filter_out_len_zero` is True (its
default here is False; it is True by default in
`restrict_one_part_with_hash` and `part_table_names_with_hash`).  It
falls back to the master's configured `hash_name` when the caller
supplies none and raises a ValidationError when no name is resolvable. -/
theorem restrict_parts_with_hash_characterization (cls_hash_name : Option String)
    (parts : List PartTable) (hash : Value) (hn : String) (foz : Bool)
    (hparts : parts ≠ []) :
    restrict_parts_with_hash cls_hash_name parts hash none none none foz =
      restrict_parts_with_hash cls_hash_name parts hash cls_hash_name none none foz ∧
    restrict_parts_with_hash none parts hash none none none foz =
      .error (.validationError
        "Table does not have \"hash_name\" defined, provide it to restrict with hash.") ∧
    (∃ qs, restrict_parts_with_hash cls_hash_name parts hash (some hn) none none foz =
        .ok qs ∧
      ∀ q, q ∈ qs ↔ ∃ p ∈ parts, hn ∈ p.heading ∧ q = restrictPart p [(hn, hash)] ∧
        (foz = true → q.rows ≠ [])) := by
  refine ⟨by cases cls_hash_name <;> rfl, rfl, ?_⟩
  have hne : parts.isEmpty = false := List.isEmpty_eq_false.mpr hparts
  cases foz with
  | false =>
    refine ⟨(parts.map (fun p => restrictPart p [(hn, hash)])).filter
        (fun p => p.heading.contains hn), ?_, ?_⟩
    · unfold restrict_parts_with_hash restrict_parts
      simp [hne]
    · intro q
      simp only [List.mem_filter, List.mem_map]
      constructor
      · rintro ⟨⟨p, hp, rfl⟩, hcont⟩
        exact ⟨p, hp, by simpa using hcont, rfl, by simp⟩
      · rintro ⟨p, hp, hhead, rfl, _⟩
        exact ⟨⟨p, hp, rfl⟩, by simpa using hhead⟩
  | true =>
    refine ⟨((parts.map (fun p => restrictPart p [(hn, hash)])).filter
        (fun p => !p.rows.isEmpty)).filter (fun p => p.heading.contains hn), ?_, ?_⟩
    · unfold restrict_parts_with_hash restrict_parts
      simp [hne]
    · intro q
      simp only [List.mem_filter, List.mem_map]
      constructor
      · rintro ⟨⟨⟨p, hp, rfl⟩, hrows⟩, hcont⟩
        refine ⟨p, hp, by simpa using hcont, rfl, fun _ => ?_⟩
        simpa [List.isEmpty_eq_false] using hrows
      · rintro ⟨p, hp, hhead, rfl, hrows⟩
        refine ⟨⟨⟨p, hp, rfl⟩, ?_⟩, by simpa using hhead⟩
        simpa [List.isEmpty_eq_false] using hrows trivial

/-- Witness for C6 (amended), spec scenario D: part P1 carries the hash
attribute with two matching rows, part P2 lacks it; the resolver keeps
exactly the restricted P1. -/
theorem restrict_parts_with_hash_characterization_witness :
    ∃ qs, restrict_parts_with_hash (some "h")
        [⟨"`db`.`m__p1`", ["h", "x"],
          [[("h", Value.str "A"), ("x", Value.int 1)],
           [("h", Value.str "A"), ("x", Value.int 2)],
           [("h", Value.str "B"), ("x", Value.int 3)]]⟩,
         ⟨"`db`.`m__p2`", ["y"], [[("y", Value.int 1)]]⟩]
        (Value.str "A") (some "h") none none true =
      .ok qs ∧
      ∀ q, q ∈ qs ↔ ∃ p ∈
        [⟨"`db`.`m__p1`", ["h", "x"],
          [[("h", Value.str "A"), ("x", Value.int 1)],
           [("h", Value.str "A"), ("x", Value.int 2)],
           [("h", Value.str "B"), ("x", Value.int 3)]]⟩,
         ⟨"`db`.`m__p2`", ["y"], [[("y", Value.int 1)]]⟩],
        "h" ∈ PartTable.heading p ∧ q = restrictPart p [("h", Value.str "A")] ∧
        (true = true → q.rows ≠ []) :=
  (restrict_parts_with_hash_characterization (some "h")
    [⟨"`db`.`m__p1`", ["h", "x"],
      [[("h", Value.str "A"), ("x", Value.int 1)],
       [("h", Value.str "A"), ("x", Value.int 2)],
       [("h", Value.str "B"), ("x", Value.int 3)]]⟩,
     ⟨"`db`.`m__p2`", ["y"], [[("y", Value.int 1)]]⟩]
    (Value.str "A") "h" true (by decide)).2.2

/-- **C9 (counterexample).** `hashes_not_in_parts` builds its query from
`cls.hash_name`, not from the caller-supplied name (base.py line 849 uses
`dj.U(cls.hash_name)` although the local `hash_name` was resolved): with
master hash attribute "h" and supplied name "x", the master row whose "x"
value is absent from the part is nevertheless dropped because its "h"
value is present, so the code returns `[]` while the claim's reading
keeps the row. -/
theorem hashes_not_in_parts_counterexample :
    hashes_not_in_parts
      ⟨"`db`.`m`", ["h", "x"], [[("h", Value.str "A"), ("x", Value.str "B")]]⟩
      (some "h")
      [⟨"`db`.`m__p`", ["h", "x"], [[("h", Value.str "A"), ("x", Value.str "C")]]⟩]
      (some "x") [] none none false =
      .ok [] ∧
    claimedHashesNotInParts
      ⟨"`db`.`m`", ["h", "x"], [[("h", Value.str "A"), ("x", Value.str "B")]]⟩
      "x"
      [⟨"`db`.`m__p`", ["h", "x"], [[("h", Value.str "A"), ("x", Value.str "C")]]⟩] =
      [[("h", Value.str "A"), ("x", Value.str "B")]] := by
  exact ⟨by decide, by decide⟩

/-- **C9 (amended).** For every master table with configured hash
attribute `chn` and every caller-supplied hash name, `hashes_not_in_parts`
returns exactly the master rows whose value of `chn` — the master's
configured hash_name, not the supplied one — is absent from the union of
the restricted parts' `chn` values; the supplied name only affects the
missing-hash-name validation, so any supplied name yields the same result
as supplying none. -/
theorem hashes_not_in_parts_uses_cls_hash_name (master : PartTable) (chn : String)
    (parts : List PartTable) (hash_name : Option String) (part_restr : Row)
    (foz : Bool) (ps : List PartTable)
    (hok : restrict_parts parts part_restr none none false foz = .ok ps)
    (hne : ps ≠ [])
    (hhead : ∀ p ∈ ps, chn ∈ p.heading) :
    hashes_not_in_parts master (some chn) parts hash_name part_restr none none foz =
      .ok (claimedHashesNotInParts master chn ps) ∧
    hashes_not_in_parts master (some chn) parts hash_name part_restr none none foz =
      hashes_not_in_parts master (some chn) parts none part_restr none none foz := by
  have hmain : ∀ hn' : Option String,
      hashes_not_in_parts master (some chn) parts hn' part_restr none none foz =
        .ok (claimedHashesNotInParts master chn ps) := by
    intro hn'
    have hempty : ps.isEmpty = false := List.isEmpty_eq_false.mpr hne
    have hall : ps.all (fun p => p.heading.contains chn) = true :=
      List.all_eq_true.mpr (fun p hp => by simpa using hhead p hp)
    unfold hashes_not_in_parts
    cases hn' with
    | none =>
      rw [hok]
      simp [hempty, hall, claimedHashesNotInParts]
      exact hhead
    | some x =>
      rw [hok]
      simp [hempty, hall, claimedHashesNotInParts]
      exact hhead
  exact ⟨hmain hash_name, (hmain hash_name).trans (hmain none).symm⟩

/-- Witness for C9 (amended) at a concrete master with one part: the
master row whose hash is absent from the part remains. -/
theorem hashes_not_in_parts_uses_cls_hash_name_witness :
    hashes_not_in_parts
      ⟨"`db`.`m`", ["h"], [[("h", Value.str "A")], [("h", Value.str "B")]]⟩
      (some "h")
      [⟨"`db`.`m__p`", ["h"], [[("h", Value.str "A")]]⟩]
      (some "ignored") [] none none false =
      .ok (claimedHashesNotInParts
        ⟨"`db`.`m`", ["h"], [[("h", Value.str "A")], [("h", Value.str "B")]]⟩
        "h"
        [⟨"`db`.`m__p`", ["h"], [[("h", Value.str "A")]]⟩]) :=
  (hashes_not_in_parts_uses_cls_hash_name
    ⟨"`db`.`m`", ["h"], [[("h", Value.str "A")], [("h", Value.str "B")]]⟩
    "h"
    [⟨"`db`.`m__p`", ["h"], [[("h", Value.str "A")]]⟩]
    (some "ignored") [] false
    [⟨"`db`.`m__p`", ["h"], [[("h", Value.str "A")]]⟩]
    (by decide) (by decide) (by decide)).1

/-- **C10.** `restrict_with_hash` builds its restriction from the class's
own `hash_name`: with configured hash_name `c` and a supplied
`hash_name = x` with `x ≠ c`, the call still returns the table restricted
by `{c: hash}` — identical to the call with no supplied name; the
supplied name only decides the missing-hash-name validation. -/
theorem restrict_with_hash_uses_cls_hash_name (table : PartTable) (c x : String)
    (hash : Value) (hx : x ≠ c) :
    restrict_with_hash table (some c) hash (some x) =
      .ok (restrictPart table [(c, hash)]) ∧
    restrict_with_hash table (some c) hash (some x) =
      restrict_with_hash table (some c) hash none := by
  exact ⟨rfl, rfl⟩

/-- Witness for C10: a table with hash attribute "h" and a row, queried
with the unrelated supplied name "x", is still restricted by "h". -/
theorem restrict_with_hash_uses_cls_hash_name_witness :
    restrict_with_hash
      ⟨"`db`.`t`", ["h"], [[("h", Value.str "A")], [("h", Value.str "B")]]⟩
      (some "h") (Value.str "A") (some "x") =
      .ok (restrictPart
        ⟨"`db`.`t`", ["h"], [[("h", Value.str "A")], [("h", Value.str "B")]]⟩
        [("h", Value.str "A")]) :=
  (restrict_with_hash_uses_cls_hash_name
    ⟨"`db`.`t`", ["h"], [[("h", Value.str "A")], [("h", Value.str "B")]]⟩
    "h" "x" (Value.str "A") (by decide)).1

/-! ## Table identity registry
(src/datajoint_plus/table.py, class TableLog, lines 335-453) -/

/-- `generate_table_id(full_table_name)` (hash.py lines 65-72): the hash
of the one-row, one-column table `[{'full_table_name': name}]`. -/
def generate_table_id (digest : String → String) (full_table_name : String) : String :=
  generate_hash digest [[("full_table_name", Value.str full_table_name)]] none

/-- One row of the `~tables` log (schema at table.py lines 355-362);
`table_id` is the primary key. -/
structure LogEntry where
  table_id : String
  full_table_name : String
  existsFlag : Nat
  djp_version : String
deriving DecidableEq, Repr

/-- The mutating actions of `TableLog.__call__` (table.py lines 381-433);
the read-only calls return without touching the log. -/
inductive LogOp where
  | add (table_id : Option String) (full_table_name : Option String)
  | delete (table_id : Option String) (full_table_name : Option String)
deriving DecidableEq, Repr

/-- The `AndList` restriction of the delete path (table.py lines
412-416): `table_id LIKE "{table_id}%"` (prefix match) and/or
`full_table_name` equality; omitted arguments restrict nothing. -/
def deleteMatches (tid? ftn? : Option String) (e : LogEntry) : Bool :=
  (match tid? with
    | none => true
    | some t => t.isPrefixOf e.table_id) &&
  (match ftn? with
    | none => true
    | some f => e.full_table_name == f)

/-- `restr._update('exists', v)`: set the `exists` flag of the rows the
restriction matches (the engine's `_update` itself touches only that
field). -/
def setExistsFlag (log : List LogEntry) (f : LogEntry → Bool) (v : Nat) : List LogEntry :=
  log.map (fun e =>
    if f e then ⟨e.table_id, e.full_table_name, v, e.djp_version⟩ else e)

/-- The add path after validation (table.py lines 398-409): `insert1` a
fresh row when `table_id` is not yet logged, then
`restr._update('exists', 1)` on the restriction — DataJoint query
expressions are lazy, so the `restr` built before `insert1` re-evaluates
against the post-insert log when `_update` runs; the engine's `_update`
requires its restriction to match exactly one row and raises otherwise. -/
def tableLogAddBody (ver : String) (log : List LogEntry) (tid ftn : String) :
    List LogEntry :=
  let log' := if (log.filter (fun e => e.table_id == tid)).isEmpty then
      log ++ [⟨tid, ftn, 1, ver⟩]
    else log
  if (log'.filter (fun e => e.table_id == tid)).length == 1 then
    setExistsFlag log' (fun e => e.table_id == tid) 1
  else log'

/-- One `TableLog.__call__` with an action (table.py lines 381-433).  The
whole body runs in a `try/except` that logs and swallows every exception,
so a failed assert or a failed `_update` leaves the log as it stands at
that point. -/
def tableLogStep (digest : String → String) (ver : String)
    (log : List LogEntry) (op : LogOp) : List LogEntry :=
  match op with
  | .add tid? ftn? =>
    match ftn? with
    | none => log
    | some ftn =>
      match tid? with
      | none => tableLogAddBody ver log (generate_table_id digest ftn) ftn
      | some t =>
        if t ≠ generate_table_id digest ftn then log
        else tableLogAddBody ver log t ftn
  | .delete tid? ftn? =>
    if (log.filter (deleteMatches tid? ftn?)).length == 1 then
      setExistsFlag log (deleteMatches tid? ftn?) 0
    else log

/-- The registry invariant: every logged `table_id` is the hash of its
stored `full_table_name` (spec §3, "table_id is a pure function of
full_table_name"), and `table_id`, the primary key, is duplicate-free. -/
def RegistryInv (digest : String → String) (log : List LogEntry) : Prop :=
  (∀ e ∈ log, e.table_id = generate_table_id digest e.full_table_name) ∧
  (log.map LogEntry.table_id).Nodup

theorem length_setExistsFlag (log : List LogEntry) (f : LogEntry → Bool) (v : Nat) :
    (setExistsFlag log f v).length = log.length := by
  simp [setExistsFlag]

theorem map_table_id_setExistsFlag (log : List LogEntry) (f : LogEntry → Bool) (v : Nat) :
    (setExistsFlag log f v).map LogEntry.table_id = log.map LogEntry.table_id := by
  unfold setExistsFlag
  rw [List.map_map]
  apply List.map_congr_left
  intro e _
  by_cases hf : f e = true <;> simp [hf]

theorem mem_setExistsFlag {log : List LogEntry} {f : LogEntry → Bool} {v : Nat}
    {e : LogEntry} (h : e ∈ setExistsFlag log f v) :
    ∃ x ∈ log, e = if f x then
      (⟨x.table_id, x.full_table_name, v, x.djp_version⟩ : LogEntry) else x := by
  rcases List.mem_map.mp h with ⟨x, hx, rfl⟩
  exact ⟨x, hx, rfl⟩

theorem filter_tid_length_one {log : List LogEntry} {tid : String}
    (hnd : (log.map LogEntry.table_id).Nodup)
    (hmem : ∃ e ∈ log, e.table_id = tid) :
    (log.filter (fun e => e.table_id == tid)).length = 1 := by
  induction log with
  | nil => simp at hmem
  | cons e rest ih =>
    rw [List.map_cons, List.nodup_cons] at hnd
    by_cases he : e.table_id = tid
    · have hrest : rest.filter (fun x => x.table_id == tid) = [] := by
        rw [List.filter_eq_nil_iff]
        intro x hx
        simp only [beq_iff_eq]
        intro hxt
        exact hnd.1 (List.mem_map.mpr ⟨x, hx, by rw [hxt, he]⟩)
      simp [List.filter_cons, he, hrest]
    · rcases hmem with ⟨x, hx, hxt⟩
      rcases List.mem_cons.mp hx with rfl | hx'
      · exact absurd hxt he
      · simp only [List.filter_cons, beq_iff_eq, he, if_false]
        exact ih hnd.2 ⟨x, hx', hxt⟩

theorem filter_tid_nil_not_mem {log : List LogEntry} {tid : String}
    (h : (log.filter (fun e => e.table_id == tid)).isEmpty = true) :
    tid ∉ log.map LogEntry.table_id := by
  intro hmem
  rcases List.mem_map.mp hmem with ⟨e, he, hte⟩
  have : e ∈ log.filter (fun x => x.table_id == tid) :=
    List.mem_filter.mpr ⟨he, by simp [hte]⟩
  rw [List.isEmpty_iff.mp h] at this
  simp at this

theorem setExistsFlag_inv {digest : String → String} {log : List LogEntry}
    (f : LogEntry → Bool) (v : Nat) (hinv : RegistryInv digest log) :
    RegistryInv digest (setExistsFlag log f v) := by
  obtain ⟨h1, h2⟩ := hinv
  constructor
  · intro e he
    rcases mem_setExistsFlag he with ⟨x, hx, rfl⟩
    by_cases hf : f x = true <;> simp only [hf, if_true, if_false, Bool.false_eq_true] <;>
      exact h1 x hx
  · rw [map_table_id_setExistsFlag]
    exact h2

theorem registry_append_inv (digest : String → String) (ver : String)
    {log : List LogEntry} (tid ftn : String) (hinv : RegistryInv digest log)
    (htid : tid = generate_table_id digest ftn)
    (hnot : tid ∉ log.map LogEntry.table_id) :
    RegistryInv digest (log ++ [⟨tid, ftn, 1, ver⟩]) := by
  obtain ⟨h1, h2⟩ := hinv
  constructor
  · intro e he
    rcases List.mem_append.mp he with h | h
    · exact h1 e h
    · simp only [List.mem_singleton] at h
      subst h
      simpa using htid
  · rw [List.map_append]
    simp [List.nodup_append, h2, hnot]

theorem tableLogAddBody_inv (digest : String → String) (ver : String)
    (log : List LogEntry) (tid ftn : String) (hinv : RegistryInv digest log)
    (htid : tid = generate_table_id digest ftn) :
    RegistryInv digest (tableLogAddBody ver log tid ftn) := by
  unfold tableLogAddBody
  by_cases hemp : (log.filter (fun e => e.table_id == tid)).isEmpty = true
  · have hinv' := registry_append_inv digest ver tid ftn hinv htid
      (filter_tid_nil_not_mem hemp)
    simp only [hemp, if_true]
    split
    · exact setExistsFlag_inv _ _ hinv'
    · exact hinv'
  · simp only [hemp, Bool.false_eq_true, if_false]
    split
    · exact setExistsFlag_inv _ _ hinv
    · exact hinv

theorem tableLogAddBody_length_mono (ver : String) (log : List LogEntry)
    (tid ftn : String) :
    log.length ≤ (tableLogAddBody ver log tid ftn).length := by
  unfold tableLogAddBody
  by_cases hemp : (log.filter (fun e => e.table_id == tid)).isEmpty = true
  · simp only [hemp, if_true]
    split <;> simp [length_setExistsFlag]
  · simp only [hemp, Bool.false_eq_true, if_false]
    split <;> simp [length_setExistsFlag]

theorem tableLogStep_inv (digest : String → String) (ver : String)
    (log : List LogEntry) (op : LogOp) (hinv : RegistryInv digest log) :
    RegistryInv digest (tableLogStep digest ver log op) := by
  cases op with
  | add tid? ftn? =>
    cases ftn? with
    | none =>
      have h : tableLogStep digest ver log (.add tid? none) = log := by
        cases tid? <;> rfl
      rw [h]
      exact hinv
    | some ftn =>
      cases tid? with
      | none => exact tableLogAddBody_inv digest ver log _ ftn hinv rfl
      | some t =>
        by_cases ht : t = generate_table_id digest ftn
        · have h : tableLogStep digest ver log (.add (some t) (some ftn)) =
              tableLogAddBody ver log t ftn := by
            simp [tableLogStep, ht]
          rw [h]
          exact tableLogAddBody_inv digest ver log t ftn hinv ht
        · have h : tableLogStep digest ver log (.add (some t) (some ftn)) = log := by
            simp [tableLogStep, ht]
          rw [h]
          exact hinv
  | delete tid? ftn? =>
    by_cases hc : ((log.filter (deleteMatches tid? ftn?)).length == 1) = true
    · have h : tableLogStep digest ver log (.delete tid? ftn?) =
          setExistsFlag log (deleteMatches tid? ftn?) 0 := by
        simp [tableLogStep, hc]
      rw [h]
      exact setExistsFlag_inv _ _ hinv
    · have h : tableLogStep digest ver log (.delete tid? ftn?) = log := by
        simp [tableLogStep, hc]
      rw [h]
      exact hinv

theorem tableLogStep_length_mono (digest : String → String) (ver : String)
    (log : List LogEntry) (op : LogOp) :
    log.length ≤ (tableLogStep digest ver log op).length := by
  cases op with
  | add tid? ftn? =>
    cases ftn? with
    | none =>
      have h : tableLogStep digest ver log (.add tid? none) = log := by
        cases tid? <;> rfl
      rw [h]
    | some ftn =>
      cases tid? with
      | none => exact tableLogAddBody_length_mono ver log _ ftn
      | some t =>
        by_cases ht : t = generate_table_id digest ftn
        · have h : tableLogStep digest ver log (.add (some t) (some ftn)) =
              tableLogAddBody ver log t ftn := by
            simp [tableLogStep, ht]
          rw [h]
          exact tableLogAddBody_length_mono ver log t ftn
        · have h : tableLogStep digest ver log (.add (some t) (some ftn)) = log := by
            simp [tableLogStep, ht]
          rw [h]
  | delete tid? ftn? =>
    by_cases hc : ((log.filter (deleteMatches tid? ftn?)).length == 1) = true
    · have h : tableLogStep digest ver log (.delete tid? ftn?) =
          setExistsFlag log (deleteMatches tid? ftn?) 0 := by
        simp [tableLogStep, hc]
      rw [h, length_setExistsFlag]
    · have h : tableLogStep digest ver log (.delete tid? ftn?) = log := by
        simp [tableLogStep, hc]
      rw [h]

/-- **C7.** Table identity registry invariants: starting from a valid log
(every `table_id` the hash of its `full_table_name`; `table_id` the
duplicate-free primary key), (i) no operation sequence ever decreases the
row count, (ii) the invariant is preserved, (iii) an `add` for a
`full_table_name` whose `table_id` is already logged creates no second
row and sets the matching row's `exists` flag to 1 (idempotent re-add),
and (iv) a `delete` matching exactly one row sets that row's `exists`
flag to 0 without removing any row. -/
theorem table_log_registry (digest : String → String) (ver : String)
    (log : List LogEntry) (ops : List LogOp) (hinv : RegistryInv digest log) :
    log.length ≤ (ops.foldl (tableLogStep digest ver) log).length ∧
    RegistryInv digest (ops.foldl (tableLogStep digest ver) log) ∧
    (∀ ftn, (∃ e ∈ log, e.table_id = generate_table_id digest ftn) →
      (tableLogStep digest ver log (.add none (some ftn))).length = log.length ∧
      ∀ e ∈ tableLogStep digest ver log (.add none (some ftn)),
        e.table_id = generate_table_id digest ftn → e.existsFlag = 1) ∧
    (∀ tid? ftn?, (log.filter (deleteMatches tid? ftn?)).length = 1 →
      (tableLogStep digest ver log (.delete tid? ftn?)).length = log.length ∧
      ∀ e ∈ tableLogStep digest ver log (.delete tid? ftn?),
        deleteMatches tid? ftn? e = true → e.existsFlag = 0) := by
  have hfold : ∀ (ops' : List LogOp) (l : List LogEntry), RegistryInv digest l →
      l.length ≤ (ops'.foldl (tableLogStep digest ver) l).length ∧
      RegistryInv digest (ops'.foldl (tableLogStep digest ver) l) := by
    intro ops'
    induction ops' with
    | nil => intro l h; exact ⟨Nat.le_refl _, h⟩
    | cons op rest ih =>
      intro l h
      rcases ih (tableLogStep digest ver l op) (tableLogStep_inv digest ver l op h) with
        ⟨ha, hb⟩
      exact ⟨Nat.le_trans (tableLogStep_length_mono digest ver l op) ha, hb⟩
  refine ⟨(hfold ops log hinv).1, (hfold ops log hinv).2, ?_, ?_⟩
  · intro ftn hex
    have hne : (log.filter (fun e => e.table_id == generate_table_id digest ftn)).isEmpty
        = false := by
      rcases hex with ⟨e, he, hte⟩
      rw [List.isEmpty_eq_false]
      intro hnil
      have : e ∈ log.filter (fun x => x.table_id == generate_table_id digest ftn) :=
        List.mem_filter.mpr ⟨he, by simp [hte]⟩
      rw [hnil] at this
      simp at this
    have hcnt : (log.filter (fun e =>
        e.table_id == generate_table_id digest ftn)).length = 1 :=
      filter_tid_length_one hinv.2 hex
    have hstep : tableLogStep digest ver log (.add none (some ftn)) =
        setExistsFlag log (fun e => e.table_id == generate_table_id digest ftn) 1 := by
      simp [tableLogStep, tableLogAddBody, hne, hcnt]
    rw [hstep]
    refine ⟨length_setExistsFlag _ _ _, ?_⟩
    intro e he hte
    rcases mem_setExistsFlag he with ⟨x, hx, rfl⟩
    by_cases hf : (x.table_id == generate_table_id digest ftn) = true
    · simp [hf]
    · rw [if_neg hf] at hte ⊢
      exact absurd (beq_iff_eq.mpr hte) hf
  · intro tid? ftn? hcnt
    have hstep : tableLogStep digest ver log (.delete tid? ftn?) =
        setExistsFlag log (deleteMatches tid? ftn?) 0 := by
      simp [tableLogStep, hcnt]
    rw [hstep]
    refine ⟨length_setExistsFlag _ _ _, ?_⟩
    intro e he hm
    rcases mem_setExistsFlag he with ⟨x, hx, rfl⟩
    by_cases hf : deleteMatches tid? ftn? x = true
    · simp [hf]
    · rw [if_neg hf] at hm ⊢
      exact absurd hm hf

/-- Witness for C7, spec scenario C: from the empty log, add `db.t1`, add
it again, then delete it — one row throughout, flags 1 then 0. -/
theorem table_log_registry_witness :
    ([] : List LogEntry).length ≤
      (([LogOp.add none (some "db.t1"), LogOp.add none (some "db.t1"),
         LogOp.delete none (some "db.t1")]).foldl
        (tableLogStep (fun s => s) "v0") []).length ∧
    RegistryInv (fun s => s)
      (([LogOp.add none (some "db.t1"), LogOp.add none (some "db.t1"),
         LogOp.delete none (some "db.t1")]).foldl
        (tableLogStep (fun s => s) "v0") []) :=
  have h := table_log_registry (fun s => s) "v0" []
    [LogOp.add none (some "db.t1"), LogOp.add none (some "db.t1"),
     LogOp.delete none (some "db.t1")]
    ⟨by simp, by simp⟩
  ⟨h.1, h.2.1⟩

end DJPlus
